import Mathlib

/-!
Shallow embedding of the tournament scheduling and ranking engine of the
`battle_score` repository (files `tournament/models.py` and
`tournament/controllers.py`), together with theorems settling the frozen
claims about it.

Modelling conventions:
* Database rows become Lean structures; a tournament's team set and match set
  are lists (in database/insertion order).  Teams are referred to by their ids
  (`Nat`).
* Timestamps are naturals; `NULL`able columns are `Option`.
* Python exceptions (`ValueError` from `min()` on an empty sequence,
  `AssertionError`, `KeyError`, `IndexError`) become `Except.error`.
* `random.shuffle` is modelled by an oracle `rng : List Nat → List Nat`
  supplied as a parameter; a real execution corresponds to an oracle that
  permutes its input.
* The Django query `order_by(...)` (ascending, SQLite `NULL`-first semantics)
  and Python's stable `sorted` are modelled with `List.insertionSort`, which
  is a stable sort and therefore produces the same list as any stable sort of
  the same data.
* The unbounded `while True` loop of `create_next_matches` is modelled with
  explicit fuel; `none` means the fuel ran out (the termination theorem shows
  `teams.length + 1` fuel always suffices).
-/

namespace BattleScore

/-- Match statuses (`Match.STATUSES` in `tournament/models.py`). -/
inductive MStatus
  | COMING
  | ONGOING
  | DONE
deriving DecidableEq, Repr

/-- A `Score` row: a value recorded for one team in one match. -/
structure Score where
  teamId : Nat
  value : Int
deriving DecidableEq, Repr

/-- A `Match` row: participating team ids, status, timestamps, ordering and
its recorded scores. -/
structure Match where
  teams : List Nat
  status : MStatus
  dateCreated : Nat
  dateEnd : Option Nat
  ordering : Nat
  scores : List Score
deriving DecidableEq, Repr

/-- A `Tournament` row together with its owned teams (ids) and matches. -/
structure Tournament where
  autoMatchCreation : Bool
  nbTeamMatches : Option Nat
  dateCreated : Nat
  teams : List Nat
  matchs : List Match
deriving DecidableEq, Repr

/-- `Match.STATUSES_PENDING`: COMING or ONGOING. -/
def MStatus.isPending : MStatus → Bool
  | .COMING => true
  | .ONGOING => true
  | .DONE => false

/-- The matches of a team (`team.matches`, reverse accessor of the
many-to-many field). -/
def teamMatches (t : Tournament) (team : Nat) : List Match :=
  t.matchs.filter (fun m => m.teams.contains team)

/-- The `nb_matches` annotation: `Count("matches")`. -/
def nbMatches (t : Tournament) (team : Nat) : Nat :=
  (teamMatches t team).length

/-- The `nb_matches_pending` annotation:
`Count("matches", filter=Q(matches__status__in=Match.STATUSES_PENDING))`. -/
def nbMatchesPending (t : Tournament) (team : Nat) : Nat :=
  ((teamMatches t team).filter (fun m => m.status.isPending)).length

/-- The `last_match_end` annotation:
`Max("matches__date_end", filter=Q(matches__status=Match.STATUSES.DONE))`;
`none` when the team has no DONE match with a date. -/
def lastMatchEnd (t : Tournament) (team : Nat) : Option Nat :=
  (((teamMatches t team).filter (fun m => m.status = MStatus.DONE)).filterMap
    (fun m => m.dateEnd)).max?

/-- Ascending comparison on an optional timestamp where `NULL` sorts first
(SQLite semantics of `ORDER BY` on a nullable aggregate). -/
def optLe : Option Nat → Option Nat → Bool
  | none, _ => true
  | some _, none => false
  | some a, some b => a ≤ b

/-- The eligibility filter of `create_next_matches`:
`nb_matches < nb_team_matches` and `nb_matches_pending = 0`. -/
def eligPred (t : Tournament) (n : Nat) (team : Nat) : Bool :=
  nbMatches t team < n && nbMatchesPending t team = 0

/-- The sort key of `order_by("nb_matches", "last_match_end")`:
lexicographic on (total matches, last DONE end date with `NULL` first). -/
def teamKeyLe (t : Tournament) (a b : Nat) : Bool :=
  nbMatches t a < nbMatches t b ||
    (nbMatches t a = nbMatches t b && optLe (lastMatchEnd t a) (lastMatchEnd t b))

/-- The eligible-team query of `create_next_matches`: filter then order. -/
def eligibleTeams (t : Tournament) (n : Nat) : List Nat :=
  (t.teams.filter (eligPred t n)).insertionSort (fun a b => teamKeyLe t a b = true)

/-- `Tournament.get_next_match_ordering`: `(max + 1) if max else 1`
(`max` is `None` when there is no match; `0` is also falsy in Python). -/
def getNextMatchOrdering (t : Tournament) : Nat :=
  match (t.matchs.map (fun m => m.ordering)).max? with
  | none => 1
  | some v => if v = 0 then 1 else v + 1

/-- Teams of the tournament having at least one ONGOING match
(`Team.objects.filter(tournament=..., matches__status=ONGOING)`). -/
def teamsOngoing (t : Tournament) : List Nat :=
  t.teams.filter (fun tm =>
    t.matchs.any (fun m => m.status = MStatus.ONGOING && m.teams.contains tm))

/-- The status computed by `Match.update_status` for a match whose teams are
`opponents`: ONGOING exactly when no opponent currently holds an ONGOING
match of the tournament, COMING otherwise.  The match's current status is not
consulted. -/
def updateStatusNext (t : Tournament) (opponents : List Nat) : MStatus :=
  if opponents.all (fun a => !(teamsOngoing t).contains a) then MStatus.ONGOING
  else MStatus.COMING

/-- Replace the element at index `i` (out-of-range indices leave the list
unchanged). -/
def modifyIdx : List Match → Nat → (Match → Match) → List Match
  | [], _, _ => []
  | m :: ms, 0, f => f m :: ms
  | m :: ms, i + 1, f => m :: modifyIdx ms i f

/-- Write a new status into the match stored at index `i`
(`self.save(update_fields=["status"])`). -/
def setMatchStatus (t : Tournament) (i : Nat) (st : MStatus) : Tournament :=
  { t with matchs := modifyIdx t.matchs i (fun m => { m with status := st }) }

/-- `Match.update_status(save=True)` on the match stored at index `i`. -/
def updateStatusSave (t : Tournament) (i : Nat) : Tournament :=
  match t.matchs.get? i with
  | none => t
  | some m => setMatchStatus t i (updateStatusNext t m.teams)

/-- `Tournament.create_match`: allocate the next ordering, insert a COMING
match with the given opponents, then run `update_status(save=True)` on it.
`now` is the creation timestamp of the new row. -/
def Tournament.createMatch (t : Tournament) (opponents : List Nat) (now : Nat) :
    Match × Tournament :=
  let ord := getNextMatchOrdering t
  let m0 : Match :=
    { teams := opponents, status := MStatus.COMING, dateCreated := now,
      dateEnd := none, ordering := ord, scores := [] }
  let t1 : Tournament := { t with matchs := t.matchs ++ [m0] }
  let st := updateStatusNext t1 opponents
  let m1 : Match := { m0 with status := st }
  (m1, { t with matchs := t.matchs ++ [m1] })

instance : Inhabited Match :=
  ⟨{ teams := [], status := MStatus.COMING, dateCreated := 0, dateEnd := none,
     ordering := 0, scores := [] }⟩

/-- Indices into `t.matchs` of the COMING matches, in the evaluation order of
the bulk pass (`filter(status=COMING)` ordered by the `ordering` field,
`Meta.ordering = ["ordering"]`). -/
def comingIndices (t : Tournament) : List Nat :=
  ((List.range t.matchs.length).filter (fun i =>
    match t.matchs.get? i with
    | some m => m.status = MStatus.COMING
    | none => false)).insertionSort (fun i j =>
      (t.matchs.getD i default).ordering ≤ (t.matchs.getD j default).ordering)

/-- The loop body of `Tournament.update_match_statuses`: walk the COMING
matches in evaluation order, carrying the set of team ids already claimed by
an earlier match of the pass; returns the indices promoted to ONGOING (in
evaluation order) and the final state. -/
def bulkPass (keepOrder : Bool) : List Nat → List Nat → Tournament →
    List Nat × Tournament
  | [], _, t => ([], t)
  | i :: rest, excluded, t =>
    match t.matchs.get? i with
    | none => bulkPass keepOrder rest excluded t
    | some m =>
      if keepOrder && m.teams.any (fun a => excluded.contains a) then
        -- Skipping teams already required by previous matches
        bulkPass keepOrder rest excluded t
      else
        let excluded1 := if keepOrder then excluded ++ m.teams else excluded
        let st := updateStatusNext t m.teams
        let t1 := setMatchStatus t i st
        let res := bulkPass keepOrder rest excluded1 t1
        (if st = MStatus.ONGOING then i :: res.1 else res.1, res.2)

/-- `Tournament.update_match_statuses(keep_match_order)`. -/
def updateMatchStatuses (t : Tournament) (keepOrder : Bool) :
    List Nat × Tournament :=
  bulkPass keepOrder (comingIndices t) [] t

/-- `tournament.teams.all()` minus the anchor: the keys of the
`team_encounters` dictionary of `_create_single_match`. -/
def othersOf (t : Tournament) (team : Nat) : List Nat :=
  t.teams.filter (fun o => o ≠ team)

/-- Encounter count accumulated by `_create_single_match` for opponent
`other`: one increment per occurrence of `other` in the team list of each of
the anchor's matches. -/
def encNb (t : Tournament) (team other : Nat) : Nat :=
  ((teamMatches t team).map (fun m => m.teams.count other)).sum

/-- `last_match` accumulated by `_create_single_match` for opponent `other`:
the creation dates of the shared matches folded with `max`, starting from the
tournament's creation date. -/
def encLast (t : Tournament) (team other : Nat) : Nat :=
  ((teamMatches t team).filter (fun m => m.teams.contains other)).foldl
    (fun acc m => max acc m.dateCreated) t.dateCreated

/-- The `assert competitor in team_encounters` check: every competitor other
than the anchor appearing in one of the anchor's matches must be a team of
the tournament. -/
def assertCompetitorsOk (t : Tournament) (team : Nat) : Bool :=
  (teamMatches t team).all (fun m =>
    m.teams.all (fun c => c = team || t.teams.contains c))

/-- `candidates`: the opponents tied at the minimum encounter count. -/
def candidatesOf (t : Tournament) (team minEnc : Nat) : List Nat :=
  (othersOf t team).filter (fun o => encNb t team o = minEnc)

/-- The `quick_match` narrowing: prefer candidates that are also among the
current iteration's other eligible teams, when that intersection is
non-empty. -/
def narrowedCandidates (availableTeams cands : List Nat) : List Nat :=
  if !availableTeams.isEmpty then
    let quick := cands.filter (fun o => availableTeams.contains o)
    if !quick.isEmpty then quick else cands
  else cands

/-- Final candidate ordering: `random.shuffle` (the oracle) for
never-played opponents, else ascending last-encounter date. -/
def orderedCandidates (rng : List Nat → List Nat) (t : Tournament)
    (team minEnc : Nat) (cands : List Nat) : List Nat :=
  if minEnc = 0 then rng cands
  else cands.insertionSort (fun a b => encLast t team a ≤ encLast t team b)

/-- `BaseSportController._create_single_match`.  Returns the created match
and the updated tournament; `Except.error` models the Python exceptions
(`AssertionError` from the competitor check, `ValueError` from `min()` on an
empty sequence when the tournament has no other team, `IndexError` if the
shuffle oracle discards every candidate).  The `.ok none` branch mirrors the
source's `if not candidates: return None` fallback. -/
def createSingleMatch (rng : List Nat → List Nat) (t : Tournament)
    (team : Nat) (availableTeams : List Nat) (now : Nat) :
    Except String (Option (Match × Tournament)) :=
  if !assertCompetitorsOk t team then
    Except.error "AssertionError"
  else
    match ((othersOf t team).map (encNb t team)).min? with
    | none => Except.error "ValueError: min() arg is an empty sequence"
    | some minEnc =>
      if (candidatesOf t team minEnc).isEmpty then
        -- No possible opponent (only 1 team in tournament ?)
        Except.ok none
      else
        match orderedCandidates rng t team minEnc
            (narrowedCandidates availableTeams (candidatesOf t team minEnc)) with
        | [] => Except.error "IndexError"
        | opp :: _ => Except.ok (some (t.createMatch [team, opp] now))

/-- The `while True` loop of `create_next_matches`, with explicit fuel.
`none` means the fuel was exhausted before the loop exited. -/
def schedLoop (rng : List Nat → List Nat) (n : Nat) :
    Nat → Tournament → Nat → List Match →
    Option (Except String (List Match × Tournament))
  | 0, _, _, _ => none
  | fuel + 1, t, clock, acc =>
    match eligibleTeams t n with
    | [] => some (Except.ok (acc.reverse, t))
    | anchor :: rest =>
      match createSingleMatch rng t anchor rest clock with
      | Except.error e => some (Except.error e)
      | Except.ok none => schedLoop rng n fuel t (clock + 1) acc
      | Except.ok (some (m, t1)) => schedLoop rng n fuel t1 (clock + 1) (m :: acc)

/-- Ghost companion of `schedLoop`: the list of creation events, each the
state at the moment of creation paired with the match created from it. -/
def schedTrace (rng : List Nat → List Nat) (n : Nat) :
    Nat → Tournament → Nat → List (Tournament × Match)
  | 0, _, _ => []
  | fuel + 1, t, clock =>
    match eligibleTeams t n with
    | [] => []
    | anchor :: rest =>
      match createSingleMatch rng t anchor rest clock with
      | Except.error _ => []
      | Except.ok none => schedTrace rng n fuel t (clock + 1)
      | Except.ok (some (m, t1)) => (t, m) :: schedTrace rng n fuel t1 (clock + 1)

/-- Python truthiness of the optional `nb_team_matches` column: `None` and
`0` are falsy. -/
def pyTruthy : Option Nat → Bool
  | none => false
  | some 0 => false
  | some (_ + 1) => true

/-- `BaseSportController.create_next_matches(tournament, update_match_statuses)`.
Short-circuits when auto-creation is disabled or the cap is unset; otherwise
runs the scheduling loop (fuel `teams.length + 1`, proven sufficient) and
finally the bulk status pass when requested. -/
def createNextMatches (rng : List Nat → List Nat) (t : Tournament)
    (doUpdate : Bool) (clock : Nat) :
    Option (Except String (List Match × Tournament)) :=
  if !t.autoMatchCreation || !pyTruthy t.nbTeamMatches then
    some (Except.ok ([], t))
  else
    match t.nbTeamMatches with
    | none => some (Except.ok ([], t))
    | some n =>
      (schedLoop rng n (t.teams.length + 1) t clock []).map (fun r =>
        r.map (fun p =>
          if doUpdate then (p.1, (updateMatchStatuses p.2 true).2) else p))

/-- One output row of `get_team_scores`. -/
structure RankEntry where
  team : Nat
  totalPoints : Nat
  rank : Nat
deriving DecidableEq, Repr

/-- `team_points[tid] += 1`: a `KeyError` is raised when `tid` is not a key
of the dictionary (the keys are the tournament's team ids). -/
def bumpPoint (keys : List Nat) (pts : Nat → Nat) (tid : Nat) :
    Except String (Nat → Nat) :=
  if keys.contains tid then
    Except.ok (fun x => if x = tid then pts tid + 1 else pts x)
  else Except.error "KeyError"

/-- The per-match body of the scoring loop of
`GenericSportController.get_team_scores`: matches with fewer than two scores
are skipped; otherwise the first two scores are compared, the strictly
higher one earns its team one point, and a draw earns both teams one
point. -/
def addMatchPoints (keys : List Nat) (pts : Nat → Nat) (m : Match) :
    Except String (Nat → Nat) :=
  match m.scores with
  | s1 :: s2 :: _ =>
    if s1.value > s2.value then bumpPoint keys pts s1.teamId
    else if s2.value > s1.value then bumpPoint keys pts s2.teamId
    else
      -- Draw: both teams get 1 point
      match bumpPoint keys pts s1.teamId with
      | Except.ok pts1 => bumpPoint keys pts1 s2.teamId
      | Except.error e => Except.error e
  | _ => Except.ok pts

/-- The rank-assignment loop of `get_team_scores`: `i` is the 0-based
position, `currentRank`/`currentPoints` the running state (`current_points`
starts at the `-1` sentinel, which no accumulated point total can equal). -/
def rankLoop (i currentRank : Nat) (currentPoints : Int) :
    List (Nat × Nat) → List RankEntry
  | [] => []
  | (tm, p) :: rest =>
    if (p : Int) ≠ currentPoints then
      { team := tm, totalPoints := p, rank := i + 1 } ::
        rankLoop (i + 1) (i + 1) (p : Int) rest
    else
      { team := tm, totalPoints := p, rank := currentRank } ::
        rankLoop (i + 1) currentRank currentPoints rest

/-- `GenericSportController.get_team_scores`: accumulate points over all
matches, produce one row per team, sort descending by points (stably), and
assign competitive ranks. -/
def getTeamScores (t : Tournament) : Except String (List RankEntry) :=
  match t.matchs.foldlM (fun p m => addMatchPoints t.teams p m) (fun _ => 0) with
  | Except.error e => Except.error e
  | Except.ok pts =>
    let rankings := t.teams.map (fun tm => (tm, pts tm))
    let sortedRankings := rankings.insertionSort (fun a b => b.2 ≤ a.2)
    Except.ok (rankLoop 0 0 (-1) sortedRankings)

/-! ## Theorems -/

/-- C7: for every tournament state, `create_next_matches` returns the empty
list, creates no match and leaves the tournament untouched whenever
`auto_match_creation` is false or `nb_team_matches` is unset. -/
theorem createNextMatches_gated (rng : List Nat → List Nat) (t : Tournament)
    (doUpdate : Bool) (clock : Nat)
    (h : t.autoMatchCreation = false ∨ t.nbTeamMatches = none) :
    createNextMatches rng t doUpdate clock = some (Except.ok ([], t)) := by
  unfold createNextMatches
  rcases h with h | h
  · simp [h]
  · simp [h, pyTruthy]

/-- Fixture: a tournament with auto-creation disabled but teams and a cap. -/
def gatedFixture : Tournament :=
  { autoMatchCreation := false, nbTeamMatches := some 3, dateCreated := 0,
    teams := [1, 2, 3], matchs := [] }

/-- Witness for C7 at a concrete disabled tournament. -/
theorem createNextMatches_gated_witness :
    gatedFixture.autoMatchCreation = false ∧
      createNextMatches id gatedFixture true 0 =
        some (Except.ok ([], gatedFixture)) :=
  ⟨rfl, createNextMatches_gated id gatedFixture true 0 (Or.inl rfl)⟩

/-- Fixture: a single-team tournament with auto-scheduling enabled. -/
def singleTeamFixture : Tournament :=
  { autoMatchCreation := true, nbTeamMatches := some 1, dateCreated := 0,
    teams := [7], matchs := [] }

/-- C5: contrary to the claim, on a single-team tournament with
auto-scheduling enabled `create_next_matches` does not return normally: the
lone team is eligible, `_create_single_match` builds an empty
`team_encounters` dictionary, and `min()` on the empty sequence raises
`ValueError` before the `if not candidates` guard that was written to handle
this case is reached. -/
theorem createNextMatches_singleTeam_raises :
    createNextMatches id singleTeamFixture true 0 =
      some (Except.error "ValueError: min() arg is an empty sequence") := by
  rfl

/-- C3: the per-match contribution inside `get_team_scores`: a match with
fewer than two recorded scores contributes nothing and raises no error; with
at least two scores the first two are compared, the strictly higher value
earns its team exactly one point (the other team and everyone else
unchanged), and equal values earn both teams exactly one point each. -/
theorem addMatchPoints_spec (keys : List Nat) (pts : Nat → Nat) (m : Match) :
    (m.scores.length < 2 → addMatchPoints keys pts m = Except.ok pts) ∧
    (∀ s1 s2 rest, m.scores = s1 :: s2 :: rest → s1.teamId ∈ keys →
      s2.teamId ∈ keys →
      ∃ pts1, addMatchPoints keys pts m = Except.ok pts1 ∧
        (s2.value < s1.value →
          pts1 s1.teamId = pts s1.teamId + 1 ∧
            ∀ x, x ≠ s1.teamId → pts1 x = pts x) ∧
        (s1.value < s2.value →
          pts1 s2.teamId = pts s2.teamId + 1 ∧
            ∀ x, x ≠ s2.teamId → pts1 x = pts x) ∧
        (s1.value = s2.value → s1.teamId ≠ s2.teamId →
          pts1 s1.teamId = pts s1.teamId + 1 ∧
            pts1 s2.teamId = pts s2.teamId + 1 ∧
            ∀ x, x ≠ s1.teamId → x ≠ s2.teamId → pts1 x = pts x)) := by
  constructor
  · intro hlen
    unfold addMatchPoints
    match hsc : m.scores with
    | [] => rfl
    | [s] => rfl
    | s1 :: s2 :: rest =>
      rw [hsc] at hlen
      simp only [List.length_cons] at hlen
      omega
  · intro s1 s2 rest hsc h1 h2
    have h1c : keys.contains s1.teamId = true := by
      simpa [List.contains, List.elem_iff] using h1
    have h2c : keys.contains s2.teamId = true := by
      simpa [List.contains, List.elem_iff] using h2
    rcases lt_trichotomy s1.value s2.value with hvl | hve | hvg
    · refine ⟨fun x => if x = s2.teamId then pts s2.teamId + 1 else pts x,
        ?_, ?_, ?_, ?_⟩
      · unfold addMatchPoints bumpPoint
        rw [hsc]
        simp only [gt_iff_lt, if_neg (not_lt.mpr hvl.le), if_pos hvl,
          if_pos h2c]
      · intro h; exact absurd hvl (not_lt.mpr h.le)
      · intro _; exact ⟨by simp, fun x hx => by simp [hx]⟩
      · intro h; exact absurd h (ne_of_lt hvl)
    · have hnl1 : ¬ s2.value < s1.value := by rw [hve]; exact lt_irrefl _
      have hnl2 : ¬ s1.value < s2.value := by rw [hve]; exact lt_irrefl _
      refine ⟨fun x => if x = s2.teamId then
          (if s2.teamId = s1.teamId then pts s1.teamId + 1 else pts s2.teamId) + 1
        else if x = s1.teamId then pts s1.teamId + 1 else pts x,
        ?_, ?_, ?_, ?_⟩
      · unfold addMatchPoints bumpPoint
        rw [hsc]
        simp only [gt_iff_lt, if_neg hnl1, if_neg hnl2, if_pos h1c, if_pos h2c]
      · intro h; exact absurd h hnl1
      · intro h; exact absurd h hnl2
      · intro _ hne
        refine ⟨by simp [hne, Ne.symm hne], by simp [Ne.symm hne], ?_⟩
        intro x hx1 hx2; simp [hx1, hx2]
    · refine ⟨fun x => if x = s1.teamId then pts s1.teamId + 1 else pts x,
        ?_, ?_, ?_, ?_⟩
      · unfold addMatchPoints bumpPoint
        rw [hsc]
        simp only [gt_iff_lt, if_pos hvg, if_pos h1c]
      · intro _; exact ⟨by simp, fun x hx => by simp [hx]⟩
      · intro h; exact absurd hvg (not_lt.mpr h.le)
      · intro h; exact absurd h.symm (ne_of_lt hvg)

/-- Fixture: a decided match, a drawn match and a short match. -/
def scoredMatchFixture : Match :=
  { teams := [1, 2], status := MStatus.DONE, dateCreated := 0, dateEnd := none,
    ordering := 1, scores := [⟨1, 10⟩, ⟨2, 5⟩] }

/-- Witness for C3: a concrete 10–5 match awards team 1 one point and leaves
team 2 untouched. -/
theorem addMatchPoints_spec_witness :
    scoredMatchFixture.scores = ⟨1, 10⟩ :: ⟨2, 5⟩ :: [] ∧
      ∃ pts1, addMatchPoints [1, 2] (fun _ => 0) scoredMatchFixture =
          Except.ok pts1 ∧ pts1 1 = 1 ∧ pts1 2 = 0 := by
  refine ⟨rfl, ?_⟩
  obtain ⟨pts1, hrun, hspec⟩ :=
    (addMatchPoints_spec [1, 2] (fun _ => 0) scoredMatchFixture).2
      ⟨1, 10⟩ ⟨2, 5⟩ [] rfl (by decide) (by decide)
  obtain ⟨hwin, hother⟩ := hspec.1 (by decide)
  exact ⟨pts1, hrun, by simpa using hwin, by simpa using hother 2 (by decide)⟩

/-- `List.contains` on team ids agrees with membership. -/
theorem containsIffMem (l : List Nat) (a : Nat) : l.contains a = true ↔ a ∈ l := by
  simp [List.contains, List.elem_iff]

/-- Membership in `teamsOngoing`: a tournament team with some ONGOING match. -/
theorem mem_teamsOngoing (t : Tournament) (a : Nat) :
    a ∈ teamsOngoing t ↔
      a ∈ t.teams ∧ ∃ m ∈ t.matchs, m.status = MStatus.ONGOING ∧ a ∈ m.teams := by
  simp only [teamsOngoing, List.mem_filter, List.any_eq_true, Bool.and_eq_true,
    decide_eq_true_eq, containsIffMem]

/-- `modifyIdx` rewrites exactly the addressed cell. -/
theorem modifyIdx_get? (l : List Match) (i : Nat) (f : Match → Match) :
    (modifyIdx l i f).get? i = (l.get? i).map f := by
  induction l generalizing i with
  | nil => cases i <;> rfl
  | cons m ms ih =>
    cases i with
    | zero => rfl
    | succ j => simpa [modifyIdx] using ih j

/-- `modifyIdx` leaves every other cell unchanged. -/
theorem modifyIdx_get?_ne (l : List Match) (i j : Nat) (f : Match → Match)
    (h : j ≠ i) : (modifyIdx l i f).get? j = l.get? j := by
  induction l generalizing i j with
  | nil => cases i <;> rfl
  | cons m ms ih =>
    cases i with
    | zero =>
      cases j with
      | zero => exact absurd rfl h
      | succ j2 => rfl
    | succ i2 =>
      cases j with
      | zero => rfl
      | succ j2 =>
        simpa [modifyIdx] using ih i2 j2 (fun hc => h (by rw [hc]))

/-- C10: `Match.update_status(save=True)` ignores the match's current status:
the next status is ONGOING exactly when no team of the match belongs to any
ONGOING match of the tournament (and COMING otherwise — those are the only
two outcomes, so a DONE match is overwritten); in particular a stored
ONGOING match with teams is always reverted to COMING, because its own teams
count as busy. -/
theorem updateStatus_ignores_current (t : Tournament) (i : Nat) (m : Match)
    (hm : t.matchs.get? i = some m) :
    (updateStatusNext t m.teams = MStatus.ONGOING ↔
      ∀ a ∈ m.teams, a ∉ teamsOngoing t) ∧
    (updateStatusNext t m.teams = MStatus.ONGOING ∨
      updateStatusNext t m.teams = MStatus.COMING) ∧
    (updateStatusSave t i).matchs.get? i =
      some { m with status := updateStatusNext t m.teams } ∧
    (m.status = MStatus.ONGOING → m.teams ≠ [] →
      (∀ a ∈ m.teams, a ∈ t.teams) →
      (updateStatusSave t i).matchs.get? i =
        some { m with status := MStatus.COMING }) := by
  have hiff : updateStatusNext t m.teams = MStatus.ONGOING ↔
      ∀ a ∈ m.teams, a ∉ teamsOngoing t := by
    unfold updateStatusNext
    split
    · rename_i hall
      simp only [List.all_eq_true, Bool.not_eq_true', ← Bool.not_eq_true,
        containsIffMem] at hall
      exact ⟨fun _ => hall, fun _ => rfl⟩
    · rename_i hall
      constructor
      · intro hc; exact absurd hc (by simp)
      · intro hnone
        exfalso
        apply hall
        simp only [List.all_eq_true, Bool.not_eq_true', ← Bool.not_eq_true,
          containsIffMem]
        exact hnone
  have hsave : (updateStatusSave t i).matchs.get? i =
      some { m with status := updateStatusNext t m.teams } := by
    unfold updateStatusSave
    rw [hm]
    simp only [setMatchStatus]
    rw [modifyIdx_get? t.matchs i, hm]
    rfl
  refine ⟨hiff, ?_, hsave, ?_⟩
  · unfold updateStatusNext; split
    · exact Or.inl rfl
    · exact Or.inr rfl
  · intro hst hne hsub
    have hbusy : ∃ a ∈ m.teams, a ∈ teamsOngoing t := by
      obtain ⟨a, ha⟩ := List.exists_mem_of_ne_nil m.teams hne
      refine ⟨a, ha, ?_⟩
      rw [mem_teamsOngoing]
      exact ⟨hsub a ha, m, List.get?_mem hm, hst, ha⟩
    have hcom : updateStatusNext t m.teams = MStatus.COMING := by
      unfold updateStatusNext
      rw [if_neg]
      intro hall
      obtain ⟨a, ha, haon⟩ := hbusy
      simp only [List.all_eq_true, Bool.not_eq_true', ← Bool.not_eq_true,
        containsIffMem] at hall
      exact hall a ha haon
    rw [hsave, hcom]

/-- Fixture: an ONGOING match whose own teams make it busy. -/
def ongoingFixture : Tournament :=
  { autoMatchCreation := false, nbTeamMatches := none, dateCreated := 0,
    teams := [1, 2],
    matchs := [{ teams := [1, 2], status := MStatus.ONGOING, dateCreated := 1,
                 dateEnd := none, ordering := 1, scores := [] }] }

/-- Witness for C10: re-running `update_status` on the stored ONGOING match
reverts it to COMING. -/
theorem updateStatus_ignores_current_witness :
    (updateStatusSave ongoingFixture 0).matchs.get? 0 =
      some { teams := [1, 2], status := MStatus.COMING, dateCreated := 1,
             dateEnd := none, ordering := 1, scores := [] } := by
  have h := updateStatus_ignores_current ongoingFixture 0
    { teams := [1, 2], status := MStatus.ONGOING, dateCreated := 1,
      dateEnd := none, ordering := 1, scores := [] } rfl
  exact h.2.2.2 rfl (by decide) (by decide)

theorem optLe_total (x y : Option Nat) : optLe x y = true ∨ optLe y x = true := by
  cases x with
  | none => exact Or.inl rfl
  | some a =>
    cases y with
    | none => exact Or.inr rfl
    | some b =>
      rcases Nat.le_total a b with h | h
      · exact Or.inl (by simpa [optLe] using h)
      · exact Or.inr (by simpa [optLe] using h)

theorem optLe_trans {x y z : Option Nat} (h1 : optLe x y = true)
    (h2 : optLe y z = true) : optLe x z = true := by
  cases x with
  | none => rfl
  | some a =>
    cases y with
    | none => simp [optLe] at h1
    | some b =>
      cases z with
      | none => simp [optLe] at h2
      | some c =>
        simp only [optLe, decide_eq_true_eq] at h1 h2 ⊢
        omega

/-- Propositional unfolding of the eligible-team sort key. -/
theorem teamKeyLe_iff (t : Tournament) (a b : Nat) :
    teamKeyLe t a b = true ↔
      nbMatches t a < nbMatches t b ∨
        (nbMatches t a = nbMatches t b ∧
          optLe (lastMatchEnd t a) (lastMatchEnd t b) = true) := by
  simp [teamKeyLe]

theorem teamKeyLe_total (t : Tournament) (a b : Nat) :
    teamKeyLe t a b = true ∨ teamKeyLe t b a = true := by
  rcases Nat.lt_trichotomy (nbMatches t a) (nbMatches t b) with h | h | h
  · exact Or.inl ((teamKeyLe_iff t a b).mpr (Or.inl h))
  · rcases optLe_total (lastMatchEnd t a) (lastMatchEnd t b) with ho | ho
    · exact Or.inl ((teamKeyLe_iff t a b).mpr (Or.inr ⟨h, ho⟩))
    · exact Or.inr ((teamKeyLe_iff t b a).mpr (Or.inr ⟨h.symm, ho⟩))
  · exact Or.inr ((teamKeyLe_iff t b a).mpr (Or.inl h))

theorem teamKeyLe_trans (t : Tournament) (a b c : Nat)
    (h1 : teamKeyLe t a b = true) (h2 : teamKeyLe t b c = true) :
    teamKeyLe t a c = true := by
  rw [teamKeyLe_iff] at h1 h2 ⊢
  rcases h1 with h1 | ⟨h1e, h1o⟩
  · rcases h2 with h2 | ⟨h2e, _⟩
    · exact Or.inl (h1.trans h2)
    · exact Or.inl (h2e ▸ h1)
  · rcases h2 with h2 | ⟨h2e, h2o⟩
    · exact Or.inl (h1e ▸ h2)
    · exact Or.inr ⟨h1e.trans h2e, optLe_trans h1o h2o⟩

theorem natMax_eq_or (a b : Nat) : max a b = a ∨ max a b = b := by
  rcases Nat.le_total a b with h | h
  · exact Or.inr (Nat.max_eq_right h)
  · exact Or.inl (Nat.max_eq_left h)

/-- A team's `last_match_end` aggregate is the end date of one of its DONE
matches. -/
theorem lastMatchEnd_gt_created (t : Tournament) (x v : Nat)
    (hSent : ∀ m ∈ t.matchs, ∀ e, m.dateEnd = some e → t.dateCreated < e)
    (h : lastMatchEnd t x = some v) : t.dateCreated < v := by
  unfold lastMatchEnd at h
  have hv := List.max?_mem natMax_eq_or h
  rw [List.mem_filterMap] at hv
  obtain ⟨m, hm, hend⟩ := hv
  have hm2 : m ∈ t.matchs := by
    have := List.mem_filter.mp hm
    exact (List.mem_filter.mp (List.mem_filter.mp hm).1).1
  exact hSent m hm2 v hend

/-- The eligible-team ordering described by the spec: the missing timestamp
of a team with no finished match is replaced by the tournament's creation
time as the sentinel oldest value. -/
def teamKeyLeSpec (t : Tournament) (a b : Nat) : Bool :=
  nbMatches t a < nbMatches t b ||
    (nbMatches t a = nbMatches t b &&
      ((lastMatchEnd t a).getD t.dateCreated ≤ (lastMatchEnd t b).getD t.dateCreated))

/-- `Tournament.create_match` produces a match with exactly the requested
opponents, whose initial status-transition check yields COMING or ONGOING
(never DONE), appended to the match list. -/
theorem createMatch_spec (t : Tournament) (ops : List Nat) (now : Nat) :
    (t.createMatch ops now).1.teams = ops ∧
      (t.createMatch ops now).1.status.isPending = true ∧
      (t.createMatch ops now).2 =
        { t with matchs := t.matchs ++ [(t.createMatch ops now).1] } := by
  refine ⟨rfl, ?_, rfl⟩
  unfold Tournament.createMatch updateStatusNext
  dsimp only
  split <;> rfl

/-- Shape of a successful `_create_single_match`: the created match pairs
the anchor with some opponent, is pending, and is appended to the state. -/
theorem createSingleMatch_ok_some (rng : List Nat → List Nat)
    (t : Tournament) (team : Nat) (avail : List Nat) (now : Nat)
    (m : Match) (t1 : Tournament)
    (h : createSingleMatch rng t team avail now = Except.ok (some (m, t1))) :
    ∃ opp, m.teams = [team, opp] ∧ m.status.isPending = true ∧
      t1 = { t with matchs := t.matchs ++ [m] } := by
  unfold createSingleMatch at h
  split at h
  · exact absurd h (by simp)
  · split at h
    · exact absurd h (by simp)
    · rename_i minEnc hmin
      split at h
      · exact absurd h (by simp)
      · split at h
        · exact absurd h (by simp)
        · rename_i opp rest hcand
          rw [Except.ok.injEq, Option.some.injEq, Prod.mk.injEq] at h
          obtain ⟨hm, ht1⟩ := h
          obtain ⟨hteams, hpend, hsnd⟩ := createMatch_spec t [team, opp] now
          exact ⟨opp, by rw [← hm]; exact hteams, by rw [← hm]; exact hpend,
            by rw [← ht1, hsnd, hm]⟩

/-- `_create_single_match` never takes the dead `return None` branch: when
the tournament has another team the minimum encounter count is attained, so
the candidate list is never empty; when it has none, `min()` raises
first. -/
theorem createSingleMatch_ne_ok_none (rng : List Nat → List Nat)
    (t : Tournament) (team : Nat) (avail : List Nat) (now : Nat) :
    createSingleMatch rng t team avail now ≠ Except.ok none := by
  intro h
  unfold createSingleMatch at h
  split at h
  · exact absurd h (by simp)
  · split at h
    · exact absurd h (by simp)
    · rename_i minEnc hmin
      split at h
      · rename_i hempty
        have hvmem : minEnc ∈ (othersOf t team).map (encNb t team) :=
          List.min?_mem (fun a b => by
            rcases Nat.le_total a b with hab | hab
            · exact Or.inl (Nat.min_eq_left hab)
            · exact Or.inr (Nat.min_eq_right hab)) hmin
        rw [List.mem_map] at hvmem
        obtain ⟨o, ho, hoe⟩ := hvmem
        have hmem : o ∈ candidatesOf t team minEnc :=
          List.mem_filter.mpr ⟨ho, by simp [hoe]⟩
        rw [List.isEmpty_iff] at hempty
        rw [hempty] at hmem
        exact absurd hmem (List.not_mem_nil o)
      · split at h
        · exact absurd h (by simp)
        · exact absurd h (by simp)

/-- The head of the eligible-team list satisfies the eligibility filter. -/
theorem eligibleTeams_head_pred (t : Tournament) (n a : Nat) (rest : List Nat)
    (h : eligibleTeams t n = a :: rest) :
    a ∈ t.teams ∧ nbMatches t a < n ∧ nbMatchesPending t a = 0 := by
  have ha : a ∈ eligibleTeams t n := h ▸ List.mem_cons_self a rest
  unfold eligibleTeams at ha
  rw [List.mem_insertionSort] at ha
  have hmem := List.mem_filter.mp ha
  have hp := hmem.2
  simp only [eligPred, Bool.and_eq_true, decide_eq_true_eq] at hp
  exact ⟨hmem.1, hp.1, hp.2⟩

/-- Every event of the scheduling trace: the creation-time state has a
non-empty eligible list whose head is the anchor, and the created match
pairs the anchor with one opponent and is pending. -/
theorem schedTrace_mem_spec (rng : List Nat → List Nat) (n : Nat) :
    ∀ fuel t clock tc m, (tc, m) ∈ schedTrace rng n fuel t clock →
      ∃ a rest opp, eligibleTeams tc n = a :: rest ∧ m.teams = [a, opp] ∧
        m.status.isPending = true := by
  intro fuel
  induction fuel with
  | zero =>
    intro t clock tc m h
    simp [schedTrace] at h
  | succ f ih =>
    intro t clock tc m h
    unfold schedTrace at h
    split at h
    · exact absurd h (List.not_mem_nil _)
    · rename_i anchor rest helig
      split at h
      · exact absurd h (List.not_mem_nil _)
      · exact ih _ _ _ _ h
      · rename_i m1 t1 hcreate
        rcases List.mem_cons.mp h with hhead | htail
        · rw [Prod.mk.injEq] at hhead
          obtain ⟨htc, hm⟩ := hhead
          obtain ⟨opp, hteams, hpend, _⟩ :=
            createSingleMatch_ok_some rng t anchor rest clock m1 t1 hcreate
          subst htc
          exact ⟨anchor, rest, opp, helig, by rw [hm]; exact hteams,
            by rw [hm]; exact hpend⟩
        · exact ih _ _ _ _ htail

/-- C9: the eligible teams of a scheduling iteration are exactly the teams
under the cap with no pending match, ordered ascending by (total matches,
last DONE end date) where a missing date sorts first; when every match end
date is later than the tournament's creation date this key coincides with
the spec's sentinel description (missing date replaced by the creation
date); and each iteration of the loop takes the head of that list as the
anchor of the created match. -/
theorem eligibleTeams_order (t : Tournament) (n : Nat)
    (hSent : ∀ m ∈ t.matchs, ∀ e, m.dateEnd = some e → t.dateCreated < e) :
    (eligibleTeams t n).Perm (t.teams.filter (eligPred t n)) ∧
    (eligibleTeams t n).Pairwise (fun a b => teamKeyLe t a b = true) ∧
    (∀ a b, teamKeyLe t a b = teamKeyLeSpec t a b) ∧
    (∀ rng fuel clock tc m, (tc, m) ∈ schedTrace rng n fuel t clock →
      ∃ a rest, eligibleTeams tc n = a :: rest ∧ m.teams.head? = some a) := by
  refine ⟨?_, ?_, ?_, ?_⟩
  · exact List.perm_insertionSort _ _
  · letI : IsTotal Nat (fun a b => teamKeyLe t a b = true) := ⟨teamKeyLe_total t⟩
    letI : IsTrans Nat (fun a b => teamKeyLe t a b = true) := ⟨teamKeyLe_trans t⟩
    exact List.sorted_insertionSort _ _
  · intro a b
    have hopt : optLe (lastMatchEnd t a) (lastMatchEnd t b) =
        decide ((lastMatchEnd t a).getD t.dateCreated ≤
          (lastMatchEnd t b).getD t.dateCreated) := by
      rcases hla : lastMatchEnd t a with _ | va <;>
        rcases hlb : lastMatchEnd t b with _ | vb
      · simp [optLe]
      · have := lastMatchEnd_gt_created t b vb hSent hlb
        simp only [optLe, Option.getD_some, Option.getD_none]
        exact (decide_eq_true (Nat.le_of_lt this)).symm
      · have := lastMatchEnd_gt_created t a va hSent hla
        simp only [optLe, Option.getD_some, Option.getD_none]
        exact (decide_eq_false (by omega)).symm
      · simp [optLe]
    unfold teamKeyLe teamKeyLeSpec
    rw [hopt]
  · intro rng fuel clock tc m h
    obtain ⟨a, rest, opp, helig, hteams, _⟩ :=
      schedTrace_mem_spec rng n fuel t clock tc m h
    exact ⟨a, rest, helig, by rw [hteams]; rfl⟩

/-- Fixture: two fresh teams and one finished pair, end dates after
creation. -/
def orderFixture : Tournament :=
  { autoMatchCreation := true, nbTeamMatches := some 2, dateCreated := 0,
    teams := [1, 2, 3],
    matchs := [{ teams := [2, 3], status := MStatus.DONE, dateCreated := 1,
                 dateEnd := some 5, ordering := 1, scores := [] }] }

/-- Witness for C9 at a concrete tournament: team 1 (no matches) sorts
first and becomes the anchor. -/
theorem eligibleTeams_order_witness :
    eligibleTeams orderFixture 2 = [1, 2, 3] ∧
      (eligibleTeams orderFixture 2).Pairwise
        (fun a b => teamKeyLe orderFixture a b = true) ∧
      teamKeyLe orderFixture 1 2 = teamKeyLeSpec orderFixture 1 2 := by
  have h := eligibleTeams_order orderFixture 2 (by
    intro m hm e he
    simp only [orderFixture, List.mem_singleton] at hm
    rw [hm] at he
    simp only [Option.some.injEq] at he
    rw [show orderFixture.dateCreated = 0 from rfl]
    omega)
  exact ⟨by decide, h.2.1, h.2.2.1 1 2⟩

/-- Two teams share a pending (COMING or ONGOING) match. -/
def sharesPendingMatch (t : Tournament) (a b : Nat) : Bool :=
  t.matchs.any (fun m =>
    m.status.isPending && m.teams.contains a && m.teams.contains b)

/-- A team with zero pending matches belongs to no pending match. -/
theorem noPending_of_zero (t : Tournament) (a : Nat)
    (h : nbMatchesPending t a = 0) :
    ∀ m ∈ t.matchs, m.status.isPending = true → a ∉ m.teams := by
  intro m hm hp hmem
  unfold nbMatchesPending at h
  rw [List.length_eq_zero] at h
  have : m ∈ (teamMatches t a).filter (fun m => m.status.isPending) :=
    List.mem_filter.mpr
      ⟨List.mem_filter.mpr ⟨hm, (containsIffMem m.teams a).mpr hmem⟩, hp⟩
  rw [h] at this
  exact absurd this (List.not_mem_nil m)

/-- Appending a match can only increase a team's pending count. -/
theorem nbMatchesPending_append_le (t : Tournament) (m1 : Match) (x : Nat) :
    nbMatchesPending t x ≤
      nbMatchesPending { t with matchs := t.matchs ++ [m1] } x := by
  unfold nbMatchesPending teamMatches
  simp only [List.filter_append, List.length_append]
  omega

/-- Appending a pending match containing `x` makes `x` pending. -/
theorem nbMatchesPending_append_mem (t : Tournament) (m1 : Match) (x : Nat)
    (hx : x ∈ m1.teams) (hp : m1.status.isPending = true) :
    1 ≤ nbMatchesPending { t with matchs := t.matchs ++ [m1] } x := by
  unfold nbMatchesPending teamMatches
  simp only [List.filter_append, List.length_append]
  have h1 : (List.filter (fun m => m.teams.contains x) [m1]) = [m1] := by
    simp [hx]
  rw [h1]
  simp [hp]

/-- Along the scheduling trace, pending counts never decrease with respect
to the trace's starting state. -/
theorem schedTrace_pending_mono (rng : List Nat → List Nat) (n : Nat) :
    ∀ fuel t clock tc m, (tc, m) ∈ schedTrace rng n fuel t clock →
      ∀ x, nbMatchesPending t x ≤ nbMatchesPending tc x := by
  intro fuel
  induction fuel with
  | zero =>
    intro t clock tc m h
    simp [schedTrace] at h
  | succ f ih =>
    intro t clock tc m h
    unfold schedTrace at h
    split at h
    · exact absurd h (List.not_mem_nil _)
    · rename_i anchor rest helig
      split at h
      · exact absurd h (List.not_mem_nil _)
      · exact ih _ _ _ _ h
      · rename_i m1 t1 hcreate
        rcases List.mem_cons.mp h with hhead | htail
        · rw [Prod.mk.injEq] at hhead
          rw [← hhead.1]
          exact fun x => Nat.le_refl _
        · intro x
          obtain ⟨opp, _, hpend, ht1⟩ :=
            createSingleMatch_ok_some rng t anchor rest clock m1 t1 hcreate
          calc nbMatchesPending t x
              ≤ nbMatchesPending { t with matchs := t.matchs ++ [m1] } x :=
                nbMatchesPending_append_le t m1 x
            _ = nbMatchesPending t1 x := by rw [ht1]
            _ ≤ nbMatchesPending tc x := ih _ _ _ _ htail x

/-- A team placed into a match by an earlier trace event has at least one
pending match in the state of every later trace event. -/
theorem schedTrace_later_pending (rng : List Nat → List Nat) (n : Nat) :
    ∀ fuel t clock i j ti mi tj mj, i < j →
      (schedTrace rng n fuel t clock).get? i = some (ti, mi) →
      (schedTrace rng n fuel t clock).get? j = some (tj, mj) →
      ∀ x ∈ mi.teams, 1 ≤ nbMatchesPending tj x := by
  intro fuel
  induction fuel with
  | zero =>
    intro t clock i j ti mi tj mj hij hi hj
    simp [schedTrace] at hi
  | succ f ih =>
    intro t clock i j ti mi tj mj hij hi hj
    unfold schedTrace at hi hj
    rcases helig : eligibleTeams t n with _ | ⟨anchor, rest⟩
    · rw [helig] at hi
      dsimp only at hi
      exact absurd hi (by simp)
    · rw [helig] at hi hj
      dsimp only at hi hj
      rcases hcr : createSingleMatch rng t anchor rest clock with e | mo
      · rw [hcr] at hi
        dsimp only at hi
        exact absurd hi (by simp)
      · rcases mo with _ | ⟨m1, t1⟩
        · rw [hcr] at hi hj
          dsimp only at hi hj
          exact ih _ _ i j ti mi tj mj hij hi hj
        · rw [hcr] at hi hj
          dsimp only at hi hj
          obtain ⟨opp, hteams1, hpend1, ht1⟩ :=
            createSingleMatch_ok_some rng t anchor rest clock m1 t1 hcr
          cases i with
          | zero =>
            rw [List.get?_cons_zero, Option.some.injEq, Prod.mk.injEq] at hi
            obtain ⟨hti, hmi⟩ := hi
            cases j with
            | zero => omega
            | succ j1 =>
              rw [List.get?_cons_succ] at hj
              have hjm : (tj, mj) ∈ schedTrace rng n f t1 (clock + 1) :=
                List.get?_mem hj
              intro x hx
              rw [← hmi] at hx
              calc 1 ≤ nbMatchesPending { t with matchs := t.matchs ++ [m1] } x :=
                    nbMatchesPending_append_mem t m1 x hx hpend1
                _ = nbMatchesPending t1 x := by rw [ht1]
                _ ≤ nbMatchesPending tj x :=
                    schedTrace_pending_mono rng n f t1 (clock + 1) tj mj hjm x
          | succ i1 =>
            cases j with
            | zero => omega
            | succ j1 =>
              rw [List.get?_cons_succ] at hi hj
              exact ih _ _ i1 j1 ti mi tj mj (by omega) hi hj

/-- C2: every match created by the scheduling loop pairs two teams that do
not share any pending (COMING or ONGOING) match at the moment of creation
(the anchor has no pending match at all), and a team placed into a match by
an earlier iteration of the same call is never the anchor of a later
iteration. -/
theorem schedTrace_no_double_booking (rng : List Nat → List Nat)
    (n fuel clock : Nat) (t : Tournament) :
    (∀ tc m, (tc, m) ∈ schedTrace rng n fuel t clock →
      ∃ a opp, m.teams = [a, opp] ∧ nbMatchesPending tc a = 0 ∧
        sharesPendingMatch tc a opp = false) ∧
    (∀ i j ti mi tj mj, i < j →
      (schedTrace rng n fuel t clock).get? i = some (ti, mi) →
      (schedTrace rng n fuel t clock).get? j = some (tj, mj) →
      ∀ x ∈ mi.teams, mj.teams.head? ≠ some x) := by
  constructor
  · intro tc m h
    obtain ⟨a, rest, opp, helig, hteams, _⟩ :=
      schedTrace_mem_spec rng n fuel t clock tc m h
    obtain ⟨_, _, hpend0⟩ := eligibleTeams_head_pred tc n a rest helig
    refine ⟨a, opp, hteams, hpend0, ?_⟩
    rw [Bool.eq_false_iff]
    intro hany
    unfold sharesPendingMatch at hany
    rw [List.any_eq_true] at hany
    obtain ⟨mm, hmm, hcond⟩ := hany
    simp only [Bool.and_eq_true, containsIffMem] at hcond
    exact noPending_of_zero tc a hpend0 mm hmm hcond.1.1 hcond.1.2
  · intro i j ti mi tj mj hij hi hj x hx hcontra
    have hjm : (tj, mj) ∈ schedTrace rng n fuel t clock := List.get?_mem hj
    obtain ⟨aj, restj, oppj, heligj, hteamsj, _⟩ :=
      schedTrace_mem_spec rng n fuel t clock tj mj hjm
    obtain ⟨_, _, hpendj⟩ := eligibleTeams_head_pred tj n aj restj heligj
    rw [hteamsj] at hcontra
    simp only [List.head?_cons, Option.some.injEq] at hcontra
    have hge := schedTrace_later_pending rng n fuel t clock i j ti mi tj mj
      hij hi hj x hx
    rw [hcontra] at hpendj
    omega

/-- Fixture for C2's witness: four fresh teams, cap 3. -/
def freshFourFixture : Tournament :=
  { autoMatchCreation := true, nbTeamMatches := some 3, dateCreated := 0,
    teams := [1, 2, 3, 4], matchs := [] }

/-- Witness for C2: in the four-team run the two created matches are [1,2]
then [3,4]; the theorem applied to the concrete trace confirms no shared
pending match and no earlier-placed team anchoring later. -/
theorem schedTrace_no_double_booking_witness :
    ∃ a opp,
      (schedTrace id 3 5 freshFourFixture 10).get? 0 =
        some (freshFourFixture,
          { teams := [1, 2], status := MStatus.ONGOING, dateCreated := 10,
            dateEnd := none, ordering := 1, scores := [] }) ∧
      (({ teams := [1, 2], status := MStatus.ONGOING, dateCreated := 10,
          dateEnd := none, ordering := 1, scores := [] } : Match).teams
        = [a, opp]) ∧
      sharesPendingMatch freshFourFixture a opp = false := by
  have h := (schedTrace_no_double_booking id 3 5 10 freshFourFixture).1
    freshFourFixture
    { teams := [1, 2], status := MStatus.ONGOING, dateCreated := 10,
      dateEnd := none, ordering := 1, scores := [] }
    (by decide)
  obtain ⟨a, opp, hteams, _, hshare⟩ := h
  exact ⟨a, opp, by decide, hteams, hshare⟩

/-- Projection used to state concrete scheduler outcomes: the team lists of
the created matches. -/
def createdTeamLists (r : Option (Except String (List Match × Tournament))) :
    List (List Nat) :=
  match r with
  | some (Except.ok (ms, _)) => ms.map (fun m => m.teams)
  | _ => []

/-- Projection used to state concrete scheduler outcomes: the final
tournament state (with a fallback default). -/
def finalTournament (r : Option (Except String (List Match × Tournament)))
    (d : Tournament) : Tournament :=
  match r with
  | some (Except.ok (_, t1)) => t1
  | _ => d

/-- Fixture refuting C1: three teams, cap 1, teams 2 and 3 already share a
DONE match (both at the cap), team 1 fresh and eligible. -/
def capFixture : Tournament :=
  { autoMatchCreation := true, nbTeamMatches := some 1, dateCreated := 0,
    teams := [1, 2, 3],
    matchs := [{ teams := [2, 3], status := MStatus.DONE, dateCreated := 1,
                 dateEnd := some 2, ordering := 1, scores := [] }] }

/-- Counterexample to C1 as stated: with cap `N = 1`, team 2 already has one
match (it is at the cap), yet a `create_next_matches` run (shuffle oracle =
identity, a legitimate permutation) creates the match `[1, 2]`, placing team
2 as the selected opponent and raising its total to 2 > N.  (Both possible
opponents 2 and 3 are at the cap, so every shuffle outcome violates the
claim.) -/
theorem cap_violation_counterexample :
    capFixture.nbTeamMatches = some 1 ∧
      nbMatches capFixture 2 = 1 ∧
      createdTeamLists (createNextMatches id capFixture false 10) = [[1, 2]] ∧
      nbMatches (finalTournament (createNextMatches id capFixture false 10)
        capFixture) 2 = 2 := by
  refine ⟨rfl, by decide, by decide, by decide⟩

/-- C1 (amended): the cap is enforced for the anchor only.  Every match
created by the scheduling loop pairs an anchor that, at the moment of
creation, is strictly below the cap and has no pending match, with one
opponent (which may itself be at or above the cap). -/
theorem schedTrace_anchor_under_cap (rng : List Nat → List Nat)
    (n fuel clock : Nat) (t : Tournament) :
    ∀ tc m, (tc, m) ∈ schedTrace rng n fuel t clock →
      ∃ a opp, m.teams = [a, opp] ∧ nbMatches tc a < n ∧
        nbMatchesPending tc a = 0 := by
  intro tc m h
  obtain ⟨a, rest, opp, helig, hteams, _⟩ :=
    schedTrace_mem_spec rng n fuel t clock tc m h
  obtain ⟨_, hcap, hpend⟩ := eligibleTeams_head_pred tc n a rest helig
  exact ⟨a, opp, hteams, hcap, hpend⟩

/-- Witness for the amended C1 on the counterexample fixture itself: the one
created match is anchored by team 1, which had 0 < 1 matches and no pending
match. -/
theorem schedTrace_anchor_under_cap_witness :
    ∃ a opp,
      ({ teams := [1, 2], status := MStatus.ONGOING, dateCreated := 10,
         dateEnd := none, ordering := 2, scores := [] } : Match).teams
        = [a, opp] ∧
      nbMatches capFixture a < 1 ∧ nbMatchesPending capFixture a = 0 := by
  exact schedTrace_anchor_under_cap id 1 4 10 capFixture capFixture
    { teams := [1, 2], status := MStatus.ONGOING, dateCreated := 10,
      dateEnd := none, ordering := 2, scores := [] } (by decide)

/-- Appending a match can only increase a team's total match count. -/
theorem nbMatches_append_le (t : Tournament) (m1 : Match) (x : Nat) :
    nbMatches t x ≤ nbMatches { t with matchs := t.matchs ++ [m1] } x := by
  unfold nbMatches teamMatches
  simp only [List.filter_append, List.length_append]
  omega

/-- A pointwise-weaker filter keeps at most as many elements. -/
theorem length_filter_mono (l : List Nat) (p q : Nat → Bool)
    (himp : ∀ x ∈ l, q x = true → p x = true) :
    (l.filter q).length ≤ (l.filter p).length := by
  induction l with
  | nil => exact Nat.le_refl _
  | cons b bs ih =>
    have ih2 := ih (fun x hx => himp x (List.mem_cons_of_mem b hx))
    rcases hq : q b with _ | _
    · rcases hp : p b with _ | _
      · simpa [List.filter_cons, hq, hp] using ih2
      · simp [List.filter_cons, hq, hp]
        omega
    · have hpb : p b = true := himp b (List.mem_cons_self b bs) hq
      simp [List.filter_cons, hq, hpb]
      omega

/-- A pointwise-weaker filter with one definite loss keeps strictly fewer
elements. -/
theorem length_filter_lt_of (l : List Nat) (p q : Nat → Bool)
    (himp : ∀ x ∈ l, q x = true → p x = true) (a : Nat) (ha : a ∈ l)
    (hpa : p a = true) (hqa : q a = false) :
    (l.filter q).length < (l.filter p).length := by
  induction l with
  | nil => exact absurd ha (List.not_mem_nil a)
  | cons b bs ih =>
    have hmono : (bs.filter q).length ≤ (bs.filter p).length :=
      length_filter_mono bs p q (fun x hx => himp x (List.mem_cons_of_mem b hx))
    rcases List.mem_cons.mp ha with rfl | hmem
    · simp [List.filter_cons, hpa, hqa]
      omega
    · have hlt := ih (fun x hx => himp x (List.mem_cons_of_mem b hx)) hmem
      rcases hq : q b with _ | _
      · rcases hp : p b with _ | _
        · simpa [List.filter_cons, hq, hp] using hlt
        · simp [List.filter_cons, hq, hp]
          omega
      · have hpb : p b = true := himp b (List.mem_cons_self b bs) hq
        simp [List.filter_cons, hq, hpb]
        omega

/-- Each successful iteration of the scheduling loop strictly shrinks the
eligible-team list: the anchor gains a pending match and no team can become
eligible. -/
theorem eligibleTeams_length_lt (rng : List Nat → List Nat) (t : Tournament)
    (n anchor clock : Nat) (rest : List Nat) (m : Match) (t1 : Tournament)
    (helig : eligibleTeams t n = anchor :: rest)
    (h : createSingleMatch rng t anchor rest clock = Except.ok (some (m, t1))) :
    (eligibleTeams t1 n).length < (eligibleTeams t n).length := by
  obtain ⟨opp, hteams, hpend, ht1⟩ :=
    createSingleMatch_ok_some rng t anchor rest clock m t1 h
  obtain ⟨hanchorMem, hcap, hpend0⟩ := eligibleTeams_head_pred t n anchor rest helig
  subst ht1
  unfold eligibleTeams
  rw [List.length_insertionSort, List.length_insertionSort]
  have hanchorTeams : anchor ∈ m.teams := by rw [hteams]; exact List.mem_cons_self _ _
  apply length_filter_lt_of t.teams (eligPred t n)
    (eligPred { t with matchs := t.matchs ++ [m] } n)
  · intro x _ hq
    simp only [eligPred, Bool.and_eq_true, decide_eq_true_eq] at hq ⊢
    have h1 := nbMatches_append_le t m x
    have h2 := nbMatchesPending_append_le t m x
    omega
  · exact hanchorMem
  · simp only [eligPred, Bool.and_eq_true, decide_eq_true_eq]
    exact ⟨hcap, hpend0⟩
  · have hge := nbMatchesPending_append_mem t m anchor hanchorTeams hpend
    simp only [eligPred, Bool.and_eq_true, decide_eq_true_eq]
    rw [Bool.eq_false_iff]
    intro hc
    rw [Bool.and_eq_true, decide_eq_true_eq, decide_eq_true_eq] at hc
    omega

/-- With fuel exceeding the eligible-team count, the scheduling loop always
returns (the other exits are the empty eligible list and an exception). -/
theorem schedLoop_isSome (rng : List Nat → List Nat) (n : Nat) :
    ∀ k t clock acc, (eligibleTeams t n).length < k →
      (schedLoop rng n k t clock acc).isSome = true := by
  intro k
  induction k with
  | zero => intro t clock acc h; omega
  | succ f ih =>
    intro t clock acc h
    unfold schedLoop
    rcases helig : eligibleTeams t n with _ | ⟨anchor, rest⟩
    · rfl
    · rcases hcr : createSingleMatch rng t anchor rest clock with e | mo
      · dsimp only
        rw [hcr]
        rfl
      · rcases mo with _ | ⟨m1, t1⟩
        · exact absurd hcr (createSingleMatch_ne_ok_none rng t anchor rest clock)
        · dsimp only
          rw [hcr]
          dsimp only
          apply ih t1 (clock + 1) (m1 :: acc)
          have hdec := eligibleTeams_length_lt rng t n anchor clock rest m1 t1
            helig hcr
          rw [helig] at hdec h
          simp only [List.length_cons] at hdec h
          omega

/-- The scheduling loop creates at most as many matches as there were
eligible teams when it started. -/
theorem schedLoop_created_bound (rng : List Nat → List Nat) (n : Nat) :
    ∀ k t clock acc ms t1,
      schedLoop rng n k t clock acc = some (Except.ok (ms, t1)) →
      ms.length ≤ acc.length + (eligibleTeams t n).length := by
  intro k
  induction k with
  | zero =>
    intro t clock acc ms t1 h
    exact absurd h (by simp [schedLoop])
  | succ f ih =>
    intro t clock acc ms t1 h
    unfold schedLoop at h
    rcases helig : eligibleTeams t n with _ | ⟨anchor, rest⟩
    · rw [helig] at h
      dsimp only at h
      rw [Option.some.injEq, Except.ok.injEq, Prod.mk.injEq] at h
      rw [← h.1, List.length_reverse]
      simp
    · rw [helig] at h
      dsimp only at h
      rcases hcr : createSingleMatch rng t anchor rest clock with e | mo
      · rw [hcr] at h
        dsimp only at h
        exact absurd h (by simp)
      · rcases mo with _ | ⟨m1, t1x⟩
        · exact absurd hcr (createSingleMatch_ne_ok_none rng t anchor rest clock)
        · rw [hcr] at h
          dsimp only at h
          have hb := ih t1x (clock + 1) (m1 :: acc) ms t1 h
          have hdec := eligibleTeams_length_lt rng t n anchor clock rest m1 t1x
            helig hcr
          rw [helig] at hdec
          simp only [List.length_cons] at hb hdec ⊢
          omega

/-- C6: `create_next_matches` terminates for every tournament: fuel
`teams.length + 1` always suffices for the loop (each successful iteration
strictly shrinks the eligible list, the other exits stop immediately), and
the number of matches created never exceeds the number of teams. -/
theorem createNextMatches_terminates (rng : List Nat → List Nat)
    (t : Tournament) (doUpdate : Bool) (clock : Nat) :
    (createNextMatches rng t doUpdate clock).isSome = true ∧
    ∀ ms t1, createNextMatches rng t doUpdate clock =
        some (Except.ok (ms, t1)) → ms.length ≤ t.teams.length := by
  unfold createNextMatches
  split
  · refine ⟨rfl, fun ms t1 h => ?_⟩
    rw [Option.some.injEq, Except.ok.injEq, Prod.mk.injEq] at h
    rw [← h.1]
    exact Nat.zero_le _
  · split
    · refine ⟨rfl, fun ms t1 h => ?_⟩
      rw [Option.some.injEq, Except.ok.injEq, Prod.mk.injEq] at h
      rw [← h.1]
      exact Nat.zero_le _
    · rename_i n hn
      have hlen : (eligibleTeams t n).length < t.teams.length + 1 := by
        unfold eligibleTeams
        rw [List.length_insertionSort]
        have := List.length_filter_le (eligPred t n) t.teams
        omega
      have hsome := schedLoop_isSome rng n (t.teams.length + 1) t clock [] hlen
      rw [Option.isSome_iff_exists] at hsome
      obtain ⟨r, hr⟩ := hsome
      rw [hr]
      refine ⟨rfl, fun ms t1 h => ?_⟩
      rcases r with e | ⟨ms1, t1x⟩
      · rw [Option.map_some', Option.some.injEq] at h
        exact absurd h (by simp [Except.map])
      · rw [Option.map_some', Option.some.injEq] at h
        have hms : ms1 = ms := by
          have h2 := congrArg Prod.fst (Except.ok.inj h)
          rcases doUpdate with _ | _ <;> simpa using h2
        have hb := schedLoop_created_bound rng n (t.teams.length + 1) t clock []
          ms1 t1x hr
        rw [hms] at hb
        simp only [List.length_nil, Nat.zero_add] at hb
        omega

/-- Fixture for C6's witness: two fresh teams, cap 1. -/
def twoTeamFixture : Tournament :=
  { autoMatchCreation := true, nbTeamMatches := some 1, dateCreated := 0,
    teams := [1, 2], matchs := [] }

/-- The match the scheduler creates on `twoTeamFixture`. -/
def twoTeamMatch : Match :=
  { teams := [1, 2], status := MStatus.ONGOING, dateCreated := 10,
    dateEnd := none, ordering := 1, scores := [] }

/-- Witness for C6: on the two-team fixture the call completes with one
created match, and the bound from the theorem applies. -/
theorem createNextMatches_terminates_witness :
    createNextMatches id twoTeamFixture true 10 =
      some (Except.ok ([twoTeamMatch],
        { twoTeamFixture with matchs := [twoTeamMatch] })) ∧
    [twoTeamMatch].length ≤ twoTeamFixture.teams.length :=
  ⟨by rfl, (createNextMatches_terminates id twoTeamFixture true 10).2
    [twoTeamMatch] { twoTeamFixture with matchs := [twoTeamMatch] } (by rfl)⟩

/-- `update_status` computes only COMING or ONGOING. -/
theorem updateStatusNext_cases (t : Tournament) (ops : List Nat) :
    updateStatusNext t ops = MStatus.ONGOING ∨
      updateStatusNext t ops = MStatus.COMING := by
  unfold updateStatusNext
  split
  · exact Or.inl rfl
  · exact Or.inr rfl

/-- `update_status` yields ONGOING exactly when no opponent holds an
ONGOING match. -/
theorem updateStatusNext_eq_ongoing_iff (t : Tournament) (ops : List Nat) :
    updateStatusNext t ops = MStatus.ONGOING ↔
      ∀ a ∈ ops, a ∉ teamsOngoing t := by
  unfold updateStatusNext
  split
  · rename_i hall
    simp only [List.all_eq_true, Bool.not_eq_true', ← Bool.not_eq_true,
      containsIffMem] at hall
    exact ⟨fun _ => hall, fun _ => rfl⟩
  · rename_i hall
    constructor
    · intro hc; exact absurd hc (by simp)
    · intro hnone
      exfalso
      apply hall
      simp only [List.all_eq_true, Bool.not_eq_true', ← Bool.not_eq_true,
        containsIffMem]
      exact hnone

/-- The promoted list of the bulk pass is a sublist of the evaluated
indices (in particular, in evaluation order). -/
theorem bulkPass_sublist (ko : Bool) :
    ∀ idxs ex t, ((bulkPass ko idxs ex t).1).Sublist idxs := by
  intro idxs
  induction idxs with
  | nil => intro ex t; exact List.Sublist.refl []
  | cons i rest ih =>
    intro ex t
    unfold bulkPass
    rcases hg : t.matchs.get? i with _ | m
    · exact (ih ex t).cons i
    · dsimp only
      split
      · exact (ih ex t).cons i
      · dsimp only
        split
        · exact (ih _ _).cons₂ i
        · exact (ih _ _).cons i

/-- Indices not evaluated by the bulk pass keep their match untouched. -/
theorem bulkPass_get?_not_mem (ko : Bool) :
    ∀ idxs ex t j, j ∉ idxs →
      (bulkPass ko idxs ex t).2.matchs.get? j = t.matchs.get? j := by
  intro idxs
  induction idxs with
  | nil => intro ex t j _; rfl
  | cons i rest ih =>
    intro ex t j hj
    have hji : j ≠ i := fun hc => hj (hc ▸ List.mem_cons_self i rest)
    have hjr : j ∉ rest := fun hc => hj (List.mem_cons_of_mem i hc)
    unfold bulkPass
    rcases hg : t.matchs.get? i with _ | m
    · exact ih ex t j hjr
    · dsimp only
      split
      · exact ih ex t j hjr
      · dsimp only
        rw [ih _ _ j hjr]
        unfold setMatchStatus
        exact modifyIdx_get?_ne t.matchs i j _ hji

/-- Evolution of the match table across a bulk pass over distinct COMING
indices: every cell is either untouched (and not reported) or promoted from
COMING to ONGOING (and reported). -/
theorem bulkPass_changes (ko : Bool) :
    ∀ idxs ex t, idxs.Nodup →
      (∀ i ∈ idxs, ∃ m, t.matchs.get? i = some m ∧ m.status = MStatus.COMING) →
      ∀ j, ((bulkPass ko idxs ex t).2.matchs.get? j = t.matchs.get? j ∧
          j ∉ (bulkPass ko idxs ex t).1) ∨
        (∃ m, t.matchs.get? j = some m ∧ m.status = MStatus.COMING ∧
          (bulkPass ko idxs ex t).2.matchs.get? j =
            some { m with status := MStatus.ONGOING } ∧
          j ∈ (bulkPass ko idxs ex t).1) := by
  intro idxs
  induction idxs with
  | nil =>
    intro ex t _ _ j
    exact Or.inl ⟨rfl, List.not_mem_nil j⟩
  | cons i rest ih =>
    intro ex t hnodup hcoming j
    obtain ⟨mi, hgi, hsti⟩ := hcoming i (List.mem_cons_self i rest)
    have hirest : i ∉ rest := (List.nodup_cons.mp hnodup).1
    have hnodup2 : rest.Nodup := (List.nodup_cons.mp hnodup).2
    have hcoming2 : ∀ i2 ∈ rest, ∃ m, t.matchs.get? i2 = some m ∧
        m.status = MStatus.COMING :=
      fun i2 h2 => hcoming i2 (List.mem_cons_of_mem i h2)
    unfold bulkPass
    rw [hgi]
    dsimp only
    split
    · exact ih ex t hnodup2 hcoming2 j
    · dsimp only
      set ex1 := if ko then ex ++ mi.teams else ex with hex1
      set st := updateStatusNext t mi.teams with hst
      set t1 := setMatchStatus t i st with ht1
      have ht1get : ∀ j2, j2 ≠ i → t1.matchs.get? j2 = t.matchs.get? j2 :=
        fun j2 hj2 => modifyIdx_get?_ne t.matchs i j2 _ hj2
      have ht1geti : t1.matchs.get? i = some { mi with status := st } := by
        rw [ht1]
        unfold setMatchStatus
        rw [modifyIdx_get? t.matchs i, hgi]
        rfl
      have hcoming1 : ∀ i2 ∈ rest, ∃ m, t1.matchs.get? i2 = some m ∧
          m.status = MStatus.COMING := by
        intro i2 h2
        obtain ⟨m2, hg2, hs2⟩ := hcoming2 i2 h2
        have : i2 ≠ i := fun hc => hirest (hc ▸ h2)
        exact ⟨m2, by rw [ht1get i2 this]; exact hg2, hs2⟩
      have hres := ih ex1 t1 hnodup2 hcoming1
      have hsubl := bulkPass_sublist ko rest ex1 t1
      by_cases hji : j = i
      · subst hji
        have hnotrest : j ∉ (bulkPass ko rest ex1 t1).1 :=
          fun hc => hirest (hsubl.subset hc)
        have hget : (bulkPass ko rest ex1 t1).2.matchs.get? j =
            some { mi with status := st } := by
          rw [bulkPass_get?_not_mem ko rest ex1 t1 j
            (fun hc => hirest hc), ht1geti]
        rcases updateStatusNext_cases t mi.teams with hON | hCO
        · rw [← hst] at hON
          right
          refine ⟨mi, hgi, hsti, ?_, ?_⟩
          · rw [hget, hON]
          · rw [if_pos hON]
            exact List.mem_cons_self _ _
        · rw [← hst] at hCO
          left
          constructor
          · rw [hget, hCO, hgi]
            have h5 : { mi with status := MStatus.COMING } = mi := by
              rw [← hsti]
            rw [h5]
          · rw [hCO]
            rw [if_neg (fun hc => MStatus.noConfusion hc)]
            exact hnotrest
      · rcases hres j with ⟨hunch, hnot⟩ | ⟨m2, hg2, hs2, hg2k, hmem2⟩
        · left
          constructor
          · rw [hunch, ht1get j hji]
          · intro hc
            split at hc
            · rcases List.mem_cons.mp hc with hc2 | hc2
              · exact hji hc2
              · exact hnot hc2
            · exact hnot hc
        · right
          refine ⟨m2, by rw [← ht1get j hji]; exact hg2, hs2, hg2k, ?_⟩
          split
          · exact List.mem_cons_of_mem i hmem2
          · exact hmem2

/-- Membership in `comingIndices`: exactly the valid indices of COMING
matches. -/
theorem mem_comingIndices (t : Tournament) (i : Nat) :
    i ∈ comingIndices t ↔
      ∃ m, t.matchs.get? i = some m ∧ m.status = MStatus.COMING := by
  unfold comingIndices
  rw [List.mem_insertionSort, List.mem_filter]
  constructor
  · rintro ⟨hrange, hpred⟩
    rcases hg : t.matchs.get? i with _ | m
    · rw [hg] at hpred
      simp at hpred
    · rw [hg] at hpred
      simp only [decide_eq_true_eq] at hpred
      exact ⟨m, rfl, hpred⟩
  · rintro ⟨m, hg, hs⟩
    constructor
    · rw [List.mem_range]
      exact (List.get?_eq_some.mp hg).1
    · rw [hg]
      simp [hs]

/-- The evaluation order visits each match index at most once. -/
theorem comingIndices_nodup (t : Tournament) : (comingIndices t).Nodup := by
  unfold comingIndices
  exact ((List.perm_insertionSort _ _).nodup_iff).mpr
    (List.Nodup.filter _ (List.nodup_range _))

/-- C8: the bulk pass `update_match_statuses` (with the default
`keep_match_order=True`) never touches a DONE or ONGOING match and never
demotes: every match is either left untouched (and not reported) or promoted
from COMING to ONGOING (and reported); the reported list is a sublist of the
COMING matches in `ordering` order (evaluation order); and an evaluated
COMING match is promoted exactly when none of its teams was claimed by an
earlier match of the pass and none currently holds an ONGOING match. -/
theorem updateMatchStatuses_spec (t : Tournament) :
    (∀ j mj, t.matchs.get? j = some mj → mj.status ≠ MStatus.COMING →
      (updateMatchStatuses t true).2.matchs.get? j = some mj ∧
        j ∉ (updateMatchStatuses t true).1) ∧
    (∀ j, ((updateMatchStatuses t true).2.matchs.get? j = t.matchs.get? j ∧
        j ∉ (updateMatchStatuses t true).1) ∨
      (∃ m, t.matchs.get? j = some m ∧ m.status = MStatus.COMING ∧
        (updateMatchStatuses t true).2.matchs.get? j =
          some { m with status := MStatus.ONGOING } ∧
        j ∈ (updateMatchStatuses t true).1)) ∧
    ((updateMatchStatuses t true).1).Sublist (comingIndices t) ∧
    (∀ i rest ex m, t.matchs.get? i = some m → i ∉ rest →
      (i ∈ (bulkPass true (i :: rest) ex t).1 ↔
        (∀ a ∈ m.teams, a ∉ ex) ∧ ∀ a ∈ m.teams, a ∉ teamsOngoing t)) := by
  have hnodup := comingIndices_nodup t
  have hcoming : ∀ i ∈ comingIndices t,
      ∃ m, t.matchs.get? i = some m ∧ m.status = MStatus.COMING :=
    fun i h => (mem_comingIndices t i).mp h
  refine ⟨?_, ?_, ?_, ?_⟩
  · intro j mj hg hne
    have hnotin : j ∉ comingIndices t := by
      intro hc
      obtain ⟨m2, hg2, hs2⟩ := (mem_comingIndices t j).mp hc
      rw [hg] at hg2
      exact hne (by rw [Option.some.injEq] at hg2; rw [hg2]; exact hs2)
    constructor
    · unfold updateMatchStatuses
      rw [bulkPass_get?_not_mem true (comingIndices t) [] t j hnotin]
      exact hg
    · intro hc
      exact hnotin ((bulkPass_sublist true (comingIndices t) [] t).subset hc)
  · exact bulkPass_changes true (comingIndices t) [] t hnodup hcoming
  · exact bulkPass_sublist true (comingIndices t) [] t
  · intro i rest ex m hg hi
    have hsubl := bulkPass_sublist true rest
    unfold bulkPass
    rw [hg]
    dsimp only
    by_cases hskip : (true && m.teams.any fun a => ex.contains a) = true
    · rw [if_pos hskip]
      simp only [Bool.true_and, List.any_eq_true, containsIffMem] at hskip
      obtain ⟨a, ha, hae⟩ := hskip
      constructor
      · intro hc
        exact absurd ((hsubl ex t).subset hc) hi
      · rintro ⟨hex, _⟩
        exact absurd hae (hex a ha)
    · rw [if_neg hskip]
      dsimp only
      have hnotrec : i ∉ (bulkPass true rest (if true = true then ex ++ m.teams
          else ex) (setMatchStatus t i (updateStatusNext t m.teams))).1 :=
        fun hc => absurd ((hsubl _ _).subset hc) hi
      simp only [Bool.true_and, List.any_eq_true, containsIffMem,
        not_exists] at hskip
      push_neg at hskip
      constructor
      · intro hc
        refine ⟨fun a ha hae => hskip a ha hae, ?_⟩
        rw [← updateStatusNext_eq_ongoing_iff t m.teams]
        by_cases hON : updateStatusNext t m.teams = MStatus.ONGOING
        · exact hON
        · rw [if_neg hON] at hc
          exact absurd hc hnotrec
      · rintro ⟨_, hfree⟩
        rw [if_pos ((updateStatusNext_eq_ongoing_iff t m.teams).mpr hfree)]
        exact List.mem_cons_self _ _

/-- Fixture for C8: two COMING matches sharing team 1, plus a DONE match. -/
def bulkFixture : Tournament :=
  { autoMatchCreation := false, nbTeamMatches := none, dateCreated := 0,
    teams := [1, 2, 3, 4],
    matchs := [{ teams := [1, 2], status := MStatus.COMING, dateCreated := 1,
                 dateEnd := none, ordering := 1, scores := [] },
               { teams := [1, 3], status := MStatus.COMING, dateCreated := 2,
                 dateEnd := none, ordering := 2, scores := [] },
               { teams := [2, 4], status := MStatus.DONE, dateCreated := 3,
                 dateEnd := some 4, ordering := 3, scores := [] }] }

/-- Witness for C8 on the fixture: the DONE match at index 2 is untouched
and unreported. -/
theorem updateMatchStatuses_spec_witness :
    (updateMatchStatuses bulkFixture true).2.matchs.get? 2 =
      some { teams := [2, 4], status := MStatus.DONE, dateCreated := 3,
             dateEnd := some 4, ordering := 3, scores := [] } ∧
    2 ∉ (updateMatchStatuses bulkFixture true).1 := by
  exact (updateMatchStatuses_spec bulkFixture).1 2
    { teams := [2, 4], status := MStatus.DONE, dateCreated := 3,
      dateEnd := some 4, ordering := 3, scores := [] } (by rfl) (by decide)

/-- The rank loop reproduces its input's team/point pairs in order. -/
theorem rankLoop_map (l : List (Nat × Nat)) : ∀ (i r : Nat) (c : Int),
    (rankLoop i r c l).map (fun e => (e.team, e.totalPoints)) = l := by
  induction l with
  | nil => intro i r c; rfl
  | cons p rest ih =>
    intro i r c
    rcases p with ⟨tm, pv⟩
    unfold rankLoop
    split
    · simp only [List.map_cons, ih]
    · simp only [List.map_cons, ih]

/-- Competitive-rank invariant of the rank loop: on a descending-sorted
tail, an entry continuing the current point block keeps the running rank,
and an entry opening a new block gets rank `(processed) + (strictly greater
in the tail) + 1`. -/
theorem rankLoop_rank_spec (l : List (Nat × Nat)) :
    ∀ (i curRank : Nat) (curPts : Int),
      l.Pairwise (fun a b => b.2 ≤ a.2) →
      (∀ y ∈ l, (y.2 : Int) ≤ curPts ∨ curPts = -1) →
      ∀ e ∈ rankLoop i curRank curPts l,
        ((e.totalPoints : Int) = curPts → e.rank = curRank) ∧
        ((e.totalPoints : Int) ≠ curPts →
          e.rank = i + l.countP (fun y => e.totalPoints < y.2) + 1) := by
  induction l with
  | nil =>
    intro i curRank curPts _ _ e he
    exact absurd he (List.not_mem_nil e)
  | cons p rest ih =>
    intro i curRank curPts hpw hbound e he
    rcases p with ⟨tm, pv⟩
    have hpw2 : rest.Pairwise (fun a b => b.2 ≤ a.2) := hpw.of_cons
    have hhead : ∀ y ∈ rest, y.2 ≤ pv :=
      fun y hy => (List.pairwise_cons.mp hpw).1 y hy
    have hheadl : ((tm, pv) : Nat × Nat) ∈ (tm, pv) :: rest :=
      List.mem_cons_self _ _
    unfold rankLoop at he
    split at he
    · rename_i hne
      rcases List.mem_cons.mp he with rfl | htail
      · refine ⟨fun hc => absurd hc hne, fun _ => ?_⟩
        have hcount : ((tm, pv) :: rest).countP
            (fun y => decide (pv < y.2)) = 0 := by
          rw [List.countP_eq_zero]
          intro a ha
          rcases List.mem_cons.mp ha with rfl | ha2
          · simp
          · simp only [decide_eq_true_eq, not_lt]
            exact hhead a ha2
        simp only [hcount]
      · have hb2 : ∀ y ∈ rest, (y.2 : Int) ≤ (pv : Int) ∨ (pv : Int) = -1 :=
          fun y hy => Or.inl (by exact_mod_cast hhead y hy)
        have hihe := ih (i + 1) (i + 1) (pv : Int) hpw2 hb2 e htail
        have hememb : (e.team, e.totalPoints) ∈ rest := by
          have := rankLoop_map rest (i + 1) (i + 1) (pv : Int)
          rw [← this]
          exact List.mem_map_of_mem _ htail
        have hele : e.totalPoints ≤ pv := hhead _ hememb
        constructor
        · intro hc
          exfalso
          rcases hbound (tm, pv) hheadl with hle | hm1
          · simp only at hle
            omega
          · omega
        · intro hc
          by_cases hev : e.totalPoints = pv
          · have hr := hihe.1 (by exact_mod_cast congrArg Nat.cast hev)
            have hcount : ((tm, pv) :: rest).countP
                (fun y => decide (e.totalPoints < y.2)) = 0 := by
              rw [List.countP_eq_zero]
              intro a ha
              rcases List.mem_cons.mp ha with rfl | ha2
              · simp only [decide_eq_true_eq, not_lt]
                omega
              · simp only [decide_eq_true_eq, not_lt]
                have := hhead a ha2
                omega
            simp only [hcount]
            omega
          · have hr := hihe.2 (by
              intro hcast
              exact hev (by exact_mod_cast hcast))
            have hlt : e.totalPoints < pv := lt_of_le_of_ne hele hev
            rw [List.countP_cons]
            simp only [decide_eq_true_eq, if_pos hlt]
            omega
    · rename_i hne2
      have heq : (pv : Int) = curPts := by
        by_contra hc
        exact hne2 hc
      rcases List.mem_cons.mp he with rfl | htail
      · refine ⟨fun _ => rfl, fun hc => ?_⟩
        exact absurd heq hc
      · have hb2 : ∀ y ∈ rest, (y.2 : Int) ≤ curPts ∨ curPts = -1 := by
          intro y hy
          left
          rw [← heq]
          exact_mod_cast hhead y hy
        have hihe := ih (i + 1) curRank curPts hpw2 hb2 e htail
        have hememb : (e.team, e.totalPoints) ∈ rest := by
          have := rankLoop_map rest (i + 1) curRank curPts
          rw [← this]
          exact List.mem_map_of_mem _ htail
        have hele : e.totalPoints ≤ pv := hhead _ hememb
        refine ⟨hihe.1, fun hc => ?_⟩
        have hr := hihe.2 hc
        have hev : e.totalPoints ≠ pv := by
          intro hc2
          apply hc
          rw [hc2, heq]
        have hlt : e.totalPoints < pv := lt_of_le_of_ne hele hev
        rw [List.countP_cons]
        simp only [decide_eq_true_eq, if_pos hlt]
        omega

/-- A match with fewer than two scores leaves the points untouched. -/
theorem addMatchPoints_short (keys : List Nat) (pts : Nat → Nat) (m : Match)
    (h : m.scores.length < 2) : addMatchPoints keys pts m = Except.ok pts := by
  unfold addMatchPoints
  match hsc : m.scores with
  | [] => rfl
  | [s] => rfl
  | s1 :: s2 :: rest =>
    rw [hsc] at h
    simp only [List.length_cons] at h
    omega

/-- A match whose first two scores belong to known teams never raises. -/
theorem addMatchPoints_isOk (keys : List Nat) (pts : Nat → Nat) (m : Match)
    (h : ∀ s ∈ m.scores.take 2, s.teamId ∈ keys) :
    ∃ pts1, addMatchPoints keys pts m = Except.ok pts1 := by
  rcases hsc : m.scores with _ | ⟨s1, tail⟩
  · exact ⟨pts, by unfold addMatchPoints; rw [hsc]⟩
  · rcases tail with _ | ⟨s2, rest⟩
    · exact ⟨pts, by unfold addMatchPoints; rw [hsc]⟩
    · have h1 : s1.teamId ∈ keys := h s1 (by rw [hsc]; simp)
      have h2 : s2.teamId ∈ keys := h s2 (by rw [hsc]; simp)
      have h1c : keys.contains s1.teamId = true := (containsIffMem _ _).mpr h1
      have h2c : keys.contains s2.teamId = true := (containsIffMem _ _).mpr h2
      unfold addMatchPoints
      rw [hsc]
      dsimp only
      unfold bumpPoint
      by_cases hv1 : s1.value > s2.value
      · rw [if_pos hv1, if_pos h1c]
        exact ⟨_, rfl⟩
      · rw [if_neg hv1]
        by_cases hv2 : s2.value > s1.value
        · rw [if_pos hv2, if_pos h2c]
          exact ⟨_, rfl⟩
        · rw [if_neg hv2, if_pos h1c]
          dsimp only
          rw [if_pos h2c]
          exact ⟨_, rfl⟩

/-- The scoring fold never raises when all scores name tournament teams. -/
theorem scoreFold_ok (keys : List Nat) :
    ∀ (ms : List Match) (pts : Nat → Nat),
      (∀ m ∈ ms, ∀ s ∈ m.scores.take 2, s.teamId ∈ keys) →
      ∃ pts1, ms.foldlM (fun p m => addMatchPoints keys p m) pts =
        Except.ok pts1 := by
  intro ms
  induction ms with
  | nil => intro pts _; exact ⟨pts, rfl⟩
  | cons m ms2 ih =>
    intro pts h
    obtain ⟨ptsm, hm⟩ :=
      addMatchPoints_isOk keys pts m (h m (List.mem_cons_self m ms2))
    obtain ⟨pts1, h1⟩ := ih ptsm (fun m2 h2 => h m2 (List.mem_cons_of_mem m h2))
    refine ⟨pts1, ?_⟩
    rw [List.foldlM_cons, hm]
    exact h1

/-- The scoring fold is the identity when every match is short. -/
theorem scoreFold_short (keys : List Nat) :
    ∀ (ms : List Match) (pts : Nat → Nat),
      (∀ m ∈ ms, m.scores.length < 2) →
      ms.foldlM (fun p m => addMatchPoints keys p m) pts = Except.ok pts := by
  intro ms
  induction ms with
  | nil => intro pts _; rfl
  | cons m ms2 ih =>
    intro pts h
    rw [List.foldlM_cons,
      addMatchPoints_short keys pts m (h m (List.mem_cons_self m ms2))]
    exact ih pts (fun m2 h2 => h m2 (List.mem_cons_of_mem m h2))

/-- C4: `get_team_scores` (when every recorded score names a tournament
team) returns one entry per team, sorted descending by total points, with
competitive ranks: each entry's rank is one plus the number of entries with
strictly more points (so ties share a rank and gaps follow tie blocks); and
with no decisive match (every match short of two scores) every team has 0
points and rank 1. -/
theorem getTeamScores_spec (t : Tournament)
    (hkeys : ∀ m ∈ t.matchs, ∀ s ∈ m.scores.take 2, s.teamId ∈ t.teams) :
    ∃ res, getTeamScores t = Except.ok res ∧
      (res.map (fun e => e.team)).Perm t.teams ∧
      res.Pairwise (fun a b => b.totalPoints ≤ a.totalPoints) ∧
      (∀ e ∈ res, e.rank =
        res.countP (fun y => e.totalPoints < y.totalPoints) + 1) ∧
      ((∀ m ∈ t.matchs, m.scores.length < 2) →
        ∀ e ∈ res, e.totalPoints = 0 ∧ e.rank = 1) := by
  obtain ⟨pts, hfold⟩ := scoreFold_ok t.teams t.matchs (fun _ => 0) hkeys
  have hrun : getTeamScores t = Except.ok (rankLoop 0 0 (-1)
      ((t.teams.map (fun tm => (tm, pts tm))).insertionSort
        (fun a b => b.2 ≤ a.2))) := by
    unfold getTeamScores
    rw [hfold]
  set rankings := t.teams.map (fun tm => (tm, pts tm)) with hrankings
  set sorted := rankings.insertionSort (fun a b => b.2 ≤ a.2) with hsorted
  set res := rankLoop 0 0 (-1) sorted with hres
  letI instTot : IsTotal (Nat × Nat) (fun a b => b.2 ≤ a.2) :=
    ⟨fun a b => Nat.le_total b.2 a.2⟩
  letI instTrans : IsTrans (Nat × Nat) (fun a b => b.2 ≤ a.2) :=
    ⟨fun a b c h1 h2 => Nat.le_trans h2 h1⟩
  have hpw : sorted.Pairwise (fun a b => b.2 ≤ a.2) :=
    List.sorted_insertionSort _ _
  have hmap : res.map (fun e => (e.team, e.totalPoints)) = sorted :=
    rankLoop_map sorted 0 0 (-1)
  have hperm : sorted.Perm rankings := List.perm_insertionSort _ _
  have hmemsorted : ∀ e ∈ res, (e.team, e.totalPoints) ∈ sorted := by
    intro e he
    rw [← hmap]
    exact List.mem_map_of_mem _ he
  have hrankProp : ∀ e ∈ res, e.rank =
      res.countP (fun y => e.totalPoints < y.totalPoints) + 1 := by
    intro e he
    have hb : ∀ y ∈ sorted, ((y.2 : Int) ≤ (-1 : Int) ∨ (-1 : Int) = -1) :=
      fun y _ => Or.inr rfl
    have hspec := rankLoop_rank_spec sorted 0 0 (-1) hpw hb e he
    have hne : (e.totalPoints : Int) ≠ -1 := by
      intro hc
      omega
    have hr := hspec.2 hne
    have hcnt : sorted.countP (fun y => decide (e.totalPoints < y.2)) =
        res.countP (fun y => decide (e.totalPoints < y.totalPoints)) := by
      rw [← hmap, List.countP_map]
      rfl
    rw [hr, hcnt]
    omega
  refine ⟨res, hrun, ?_, ?_, hrankProp, ?_⟩
  · have h1 : res.map (fun e => e.team) = sorted.map Prod.fst := by
      rw [← hmap, List.map_map]
      rfl
    have h2 : rankings.map Prod.fst = t.teams := by
      rw [hrankings, List.map_map]
      have h3 : (Prod.fst ∘ fun tm => (tm, pts tm)) = fun tm : Nat => tm := rfl
      rw [h3]
      exact List.map_id' t.teams
    rw [h1]
    exact h2 ▸ hperm.map Prod.fst
  · have h4 := hpw
    rw [← hmap, List.pairwise_map] at h4
    exact h4
  · intro hshort e he
    have hzero : t.matchs.foldlM (fun p m => addMatchPoints t.teams p m)
        (fun _ => (0 : Nat)) = Except.ok (fun _ => (0 : Nat)) :=
      scoreFold_short t.teams t.matchs (fun _ => 0) hshort
    rw [hfold] at hzero
    have hpts : pts = (fun _ => (0 : Nat)) := Except.ok.inj hzero
    have hzeroAll : ∀ y ∈ sorted, y.2 = 0 := by
      intro y hy
      have hyr : y ∈ rankings := hperm.subset hy
      rw [hrankings, List.mem_map] at hyr
      obtain ⟨tm, _, htm⟩ := hyr
      rw [← htm, hpts]
    have hez : e.totalPoints = 0 := by
      have := hzeroAll _ (hmemsorted e he)
      exact this
    refine ⟨hez, ?_⟩
    have hr := hrankProp e he
    have hcz : res.countP (fun y => decide (e.totalPoints < y.totalPoints)) = 0 := by
      rw [List.countP_eq_zero]
      intro y hy
      have hyz : y.totalPoints = 0 := hzeroAll _ (hmemsorted y hy)
      simp only [decide_eq_true_eq, not_lt, hyz, hez]
      exact Nat.le_refl 0
    rw [hr, hcz]

/-- Fixture for C4: points 2, 1, 1 must give ranks 1, 2, 2. -/
def rankFixture : Tournament :=
  { autoMatchCreation := false, nbTeamMatches := none, dateCreated := 0,
    teams := [1, 2, 3],
    matchs := [{ teams := [1, 2], status := MStatus.DONE, dateCreated := 1,
                 dateEnd := none, ordering := 1, scores := [⟨1, 10⟩, ⟨2, 0⟩] },
               { teams := [2, 3], status := MStatus.DONE, dateCreated := 2,
                 dateEnd := none, ordering := 2, scores := [⟨2, 5⟩, ⟨3, 5⟩] },
               { teams := [3, 1], status := MStatus.DONE, dateCreated := 3,
                 dateEnd := none, ordering := 3, scores := [⟨3, 10⟩, ⟨1, 0⟩] }] }

/-- Witness for C4: the concrete standings are team 3 with 2 points at rank
1, then teams 1 and 2 with 1 point sharing rank 2, and the theorem applies
to this tournament. -/
theorem getTeamScores_spec_witness :
    getTeamScores rankFixture = Except.ok
      [{ team := 3, totalPoints := 2, rank := 1 },
       { team := 1, totalPoints := 1, rank := 2 },
       { team := 2, totalPoints := 1, rank := 2 }] ∧
    ∃ res, getTeamScores rankFixture = Except.ok res ∧
      (res.map (fun e => e.team)).Perm rankFixture.teams ∧
      res.Pairwise (fun a b => b.totalPoints ≤ a.totalPoints) ∧
      (∀ e ∈ res, e.rank =
        res.countP (fun y => e.totalPoints < y.totalPoints) + 1) ∧
      ((∀ m ∈ rankFixture.matchs, m.scores.length < 2) →
        ∀ e ∈ res, e.totalPoints = 0 ∧ e.rank = 1) :=
  ⟨by rfl, getTeamScores_spec rankFixture (by decide)⟩

end BattleScore
